import Mathlib

/-!
Verification of the hubfs path-resolution and handle-management core
(hubfs.go) against its natural-language specification.

The Go source is embedded shallowly: pure functions become Lean functions,
the provider layer becomes a record of oracles, and the handle table becomes
explicit state passing.  Provider calls made by the resolver are additionally
recorded in a ghost event trace so that claims about which calls happen (and
about resource acquisition/release balance) can be stated.
-/

set_option maxHeartbeats 1000000

/-! ## Go string primitives used by the source -/

/-- Model of Go strings.Split(path, "/") restricted to the separator "/":
splits a character list at every slash, keeping empty components. -/
def splitSlash : List Char → List (List Char)
  | [] => [[]]
  | c :: rest =>
    if c = '/' then [] :: splitSlash rest
    else
      match splitSlash rest with
      | [] => [[c]]
      | t :: ts => (c :: t) :: ts

/-- Model of Go strings.Join(elems, "/") on character lists. -/
def joinSlashL (l : List (List Char)) : List Char :=
  (l.intersperse ['/']).flatten

/-- Model of Go strings.ReplaceAll(s, a, b) for single-character a and b. -/
def replaceAllC (s : String) (a b : Char) : String :=
  ⟨s.data.map fun c => if c = a then b else c⟩

/-- Model of Go strings.HasPrefix. -/
def hasPfx (s p : String) : Bool :=
  p.data.isPrefixOf s.data

/-- Model of Go strings.TrimPrefix: drop p from the front of s when present. -/
def trimPfx (s p : String) : String :=
  if p.data.isPrefixOf s.data then ⟨s.data.drop p.data.length⟩ else s

/-- Model of Go strings.TrimSuffix: drop p from the end of s when present. -/
def trimSfx (s p : String) : String :=
  if p.data.isSuffixOf s.data then ⟨s.data.take (s.data.length - p.data.length)⟩ else s

/-- Model of Go strings.Join(elems, "/") on strings. -/
def joinSlash (l : List String) : String :=
  ⟨joinSlashL (l.map String.data)⟩

/-! ## Go path.Clean and path.Join

Modelled from the Go standard library path package: Clean performs purely
lexical simplification (drop empty and dot components, resolve dotdot
against the component stack, keep rootedness), Join concatenates with
slashes and Cleans the result. -/

/-- The component-stack processing inside path.Clean: skip empty and "."
components, let ".." pop a previous real component (or be kept when the
path is relative and nothing can be popped; or be dropped at the root of a
rooted path), push everything else.  Returns the surviving components in
order. -/
def cleanStack (rooted : Bool) : List (List Char) → List (List Char) → List (List Char)
  | stack, [] => stack.reverse
  | stack, c :: rest =>
    if c = [] ∨ c = ['.'] then cleanStack rooted stack rest
    else if c = ['.', '.'] then
      match stack with
      | t :: stack2 =>
        if t = ['.', '.'] then cleanStack rooted (c :: t :: stack2) rest
        else cleanStack rooted stack2 rest
      | [] => if rooted then cleanStack rooted [] rest else cleanStack rooted [c] rest
    else cleanStack rooted (c :: stack) rest

/-- Model of Go path.Clean. -/
def goClean (s : String) : String :=
  match s.data with
  | [] => "."
  | c :: rest =>
    let rooted := c = '/'
    let stack := cleanStack rooted [] (splitSlash (c :: rest))
    let out := joinSlashL stack
    if rooted then ⟨'/' :: out⟩
    else if out = [] then "." else ⟨out⟩

/-- Model of Go path.Join(a, b) (two arguments): drop leading empty
elements, join the rest with a slash and Clean; all-empty input gives "". -/
def goJoin2 (a b : String) : String :=
  if a ≠ "" then goClean ⟨a.data ++ '/' :: b.data⟩
  else if b ≠ "" then goClean b
  else ""

/-- Model of variadic Go path.Join(elems...): skip to the first non-empty
element, join from there (keeping later empties) and Clean. -/
def goJoinList (elems : List String) : String :=
  match elems.dropWhile (fun e => e = "") with
  | [] => ""
  | rest => goClean (joinSlash rest)

/-! ## hubfs split and tokenization (hubfs.go split, openex line 61) -/

/-- hubfs.go split: strings.Split(path, "/")[1:], with the singleton empty
component list collapsed to the empty list. -/
def split (path : String) : List String :=
  let comp := ((splitSlash path.data).map fun l => (⟨l⟩ : String)).drop 1
  if comp.length = 1 ∧ comp.headD "" = "" then [] else comp

/-- The token sequence openex works on: split(path.Join(prefix, path)). -/
def tokenize (pfx path : String) : List String :=
  split (goJoin2 pfx path)

/-! ## Provider surface (consumed interface)

The provider layer is out of scope for the core and is modelled as a record
of pure oracles.  Errors are the sentinel ErrNotFound or any other provider
error (carried with a message).  Owners, refs and tree entries are the data
the core actually reads off them; a repository is its name together with
its call surface. -/

/-- Provider error: the sentinel ErrNotFound, or any other error. -/
inductive Err
  | notFound
  | other (msg : String)
deriving DecidableEq

/-- Provider owner value: the core only reads its name. -/
structure Owner where
  name : String
deriving DecidableEq

/-- Provider ref value: name plus the tree timestamp used for stats. -/
structure Ref where
  name : String
  treeTime : Nat
deriving DecidableEq

/-- Provider tree entry value: name, git mode, size and link target. -/
structure TreeEntry where
  name : String
  mode : Nat
  size : Int
  target : String
deriving DecidableEq

/-- Provider repository: name plus its call surface.  GetRef and friends
are pure oracles returning Except. -/
structure Repository where
  name : String
  getRefs : Except Err (List Ref)
  getRef : String → Except Err Ref
  getTempRef : String → Except Err Ref
  getTree : Option Ref → Option TreeEntry → Except Err (List TreeEntry)
  getTreeEntry : Option Ref → Option TreeEntry → String → Except Err TreeEntry
  getModule : Option Ref → String → Bool → Except Err String

/-- Provider client: the capability set the core consumes. -/
structure Client where
  openOwner : String → Except Err Owner
  openRepository : Owner → String → Except Err Repository
  getRepositories : Owner → Except Err (List Repository)
  getOwners : Except Err (List Owner)

/-! ## hubfs data model -/

/-- The per-lookup resource bundle (hubfs.go obstack struct).  The blob
reader slot is not modelled: no claim is about Read. -/
structure Obstack where
  owner : Option Owner := none
  repository : Option Repository := none
  ref : Option Ref := none
  entry : Option TreeEntry := none

/-- The hubfs configuration (hubfs.go Config / hubfs struct fields):
client and mount prefix; caseins and overlay are accepted but unused at
this layer. -/
structure HubfsCfg where
  client : Client
  pfx : String
  caseins : Bool := false
  overlay : Bool := false

/-- The mutable hubfs state (hubfs.go hubfs struct): handle counter and
open map.  Go zero-values the counter, so a fresh filesystem starts at 0. -/
structure FsState where
  fh : Nat
  openmap : List (Nat × Obstack)

/-- hubfs.go new: fresh state with zero handle counter and empty map. -/
def hubfsNew : FsState :=
  { fh := 0, openmap := [] }

/-- Association-list lookup modelling the Go map access openmap[fh]. -/
def lookupMap : List (Nat × Obstack) → Nat → Option Obstack
  | [], _ => none
  | (k, v) :: rest, fh => if k = fh then some v else lookupMap rest fh

/-! ## fuse constants and stat projection -/

/-- POSIX file-type mask (cgofuse fuse.S_IFMT). -/
def S_IFMT : Nat := 0o170000

/-- POSIX directory type bits (cgofuse fuse.S_IFDIR). -/
def S_IFDIR : Nat := 0o040000

/-- POSIX regular-file type bits (cgofuse fuse.S_IFREG). -/
def S_IFREG : Nat := 0o100000

/-- POSIX symlink type bits (cgofuse fuse.S_IFLNK). -/
def S_IFLNK : Nat := 0o120000

/-- errno ENOENT (cgofuse fuse.ENOENT). -/
def ENOENT : Int := 2

/-- errno EIO (cgofuse fuse.EIO). -/
def EIOE : Int := 5

/-- errno EINVAL (cgofuse fuse.EINVAL). -/
def EINVAL : Int := 22

/-- The fields of fuse.Stat_t that hubfs fills (timestamps as abstract
instants). -/
structure Stat where
  mode : Nat
  nlink : Nat
  size : Int
  atim : Nat
  mtim : Nat
  ctim : Nat
  birthtim : Nat
deriving DecidableEq

/-- hubfs.go fuseStat: project a git mode onto a POSIX stat.  The default
branch reproduces the source exactly: it first overwrites mode with
S_IFREG | 0644 and then tests the 0400 bit of that overwritten value. -/
def fuseStat (mode0 : Nat) (size : Int) (time : Nat) : Stat :=
  let mode :=
    if mode0 &&& S_IFMT = S_IFDIR then S_IFDIR ||| 0o755
    else if mode0 &&& S_IFMT = S_IFLNK ∨ mode0 &&& S_IFMT = 0o160000 then S_IFLNK ||| 0o777
    else
      let m := S_IFREG ||| 0o644
      if m &&& 0o400 ≠ 0 then S_IFREG ||| 0o755 else m
  { mode := mode, nlink := 1, size := size,
    atim := time, mtim := time, ctim := time, birthtim := time }

/-- hubfs.go fuseErrc: ErrNotFound maps to -ENOENT, anything else to -EIO. -/
def fuseErrc : Err → Int
  | .notFound => -ENOENT
  | .other _ => -EIOE

/-! ## Resolver (hubfs.go openex) with ghost event trace -/

/-- Ghost events recording the provider calls the resolver performs and
the releases it triggers.  Open events carry whether the call succeeded. -/
inductive Ev
  | openOwnerC (name : String) (ok : Bool)
  | closeOwner
  | openRepoC (name : String) (ok : Bool)
  | closeRepo
  | getRefE (name : String)
  | getTempRefE (name : String)
  | getTreeEntryE (name : String)
deriving DecidableEq

/-- hubfs.go release: close the repository if held, then the owner if
held; expressed as the trace of close events it generates. -/
def releaseEvs (obs : Obstack) : List Ev :=
  (if obs.repository.isSome then [Ev.closeRepo] else [])
    ++ (if obs.owner.isSome then [Ev.closeOwner] else [])

/-- The depth-0 admissibility filter of openex: the token contains a dot
or is the special git name HEAD. -/
def hasDotOrHead (c : String) : Bool :=
  c.data.any (fun r => r = '.') || c == "HEAD"

/-- Ref-token decoding (openex depth 2): each space becomes a slash. -/
def decodeRefToken (c : String) : String :=
  replaceAllC c ' ' '/'

/-- Ref-name encoding (openex depth 2 normalization): strip a leading
refs/heads/ if present, else refs/tags/ if present, else keep the raw
name; then each slash becomes a space. -/
def encodeRefName (r : String) : String :=
  let n := trimPfx r "refs/heads/"
  let n :=
    if r = n then
      let n2 := trimPfx r "refs/tags/"
      if r = n2 then r else n2
    else n
  replaceAllC n '/' ' '

/-- One iteration of the openex loop at token index i with token c:
returns the updated obstack, the provider error if any, the (possibly
normalized) token, and the provider-call events.  Branches on the index
exactly as the source switch does.  The arms matching on a slot that the
loop invariant guarantees to be populated carry an unreachable default
(Go would dereference a non-nil interface there). -/
def openexStep (fs : HubfsCfg) (norm : Bool) (i : Nat) (c : String) (obs : Obstack) :
    Obstack × Option Err × String × List Ev :=
  match i with
  | 0 =>
    if hasDotOrHead c then
      ({ obs with owner := none }, some .notFound, c, [])
    else
      match fs.client.openOwner c with
      | .ok o => ({ obs with owner := some o }, none, if norm then o.name else c,
          [.openOwnerC c true])
      | .error e => ({ obs with owner := none }, some e, c, [.openOwnerC c false])
  | 1 =>
    match obs.owner with
    | none => (obs, some (.other "nil owner"), c, [])
    | some o =>
      match fs.client.openRepository o c with
      | .ok r => ({ obs with repository := some r }, none, if norm then r.name else c,
          [.openRepoC c true])
      | .error e => ({ obs with repository := none }, some e, c, [.openRepoC c false])
  | 2 =>
    match obs.repository with
    | none => (obs, some (.other "nil repository"), c, [])
    | some repo =>
      let cd := decodeRefToken c
      match repo.getRef ("refs/heads/" ++ cd) with
      | .ok ref => ({ obs with ref := some ref }, none,
          if norm then encodeRefName ref.name else c, [.getRefE ("refs/heads/" ++ cd)])
      | .error .notFound =>
        match repo.getRef ("refs/tags/" ++ cd) with
        | .ok ref => ({ obs with ref := some ref }, none,
            if norm then encodeRefName ref.name else c,
            [.getRefE ("refs/heads/" ++ cd), .getRefE ("refs/tags/" ++ cd)])
        | .error .notFound =>
          match repo.getTempRef cd with
          | .ok ref => ({ obs with ref := some ref }, none,
              if norm then encodeRefName ref.name else c,
              [.getRefE ("refs/heads/" ++ cd), .getRefE ("refs/tags/" ++ cd),
               .getTempRefE cd])
          | .error e => ({ obs with ref := none }, some e, c,
              [.getRefE ("refs/heads/" ++ cd), .getRefE ("refs/tags/" ++ cd),
               .getTempRefE cd])
        | .error e => ({ obs with ref := none }, some e, c,
            [.getRefE ("refs/heads/" ++ cd), .getRefE ("refs/tags/" ++ cd)])
      | .error e => ({ obs with ref := none }, some e, c,
          [.getRefE ("refs/heads/" ++ cd)])
  | _ + 3 =>
    match obs.repository with
    | none => (obs, some (.other "nil repository"), c, [])
    | some repo =>
      match repo.getTreeEntry obs.ref obs.entry c with
      | .ok e2 => ({ obs with entry := some e2 }, none, if norm then e2.name else c,
          [.getTreeEntryE c])
      | .error e => ({ obs with entry := none }, some e, c, [.getTreeEntryE c])

/-- The openex loop over the token list, starting at index i.  On a step
error it releases the obstack and returns the errno with the tokens seen
so far (partially normalized) and the full event trace; on completion it
returns the populated obstack. -/
def openexLoop (fs : HubfsCfg) (norm : Bool) :
    Nat → Obstack → List String → Int × Option Obstack × List String × List Ev
  | _, obs, [] => (0, some obs, [], [])
  | i, obs, c :: rest =>
    match openexStep fs norm i c obs with
    | (obs1, some e, c1, evs1) => (fuseErrc e, none, c1 :: rest, evs1 ++ releaseEvs obs1)
    | (obs1, none, c1, evs1) =>
      match openexLoop fs norm (i + 1) obs1 rest with
      | (errc, res, rest1, evs2) => (errc, res, c1 :: rest1, evs1 ++ evs2)

/-- hubfs.go openex: tokenize the prefixed path and walk the provider
level by level. -/
def openex (fs : HubfsCfg) (path : String) (norm : Bool) :
    Int × Option Obstack × List String × List Ev :=
  openexLoop fs norm 0 {} (tokenize fs.pfx path)

/-! ## Attribute projector and filesystem facade -/

/-- The tree time getattr reads from the obstack's ref (hubfs.go line 140);
the default covers the slot the source would only dereference when an
entry is present (entry present implies ref present). -/
def obsTreeTime (obs : Obstack) : Nat :=
  (obs.ref.map Ref.treeTime).getD 0

/-- The module path getattr resolves for a submodule: GetModule on the
path with the first three tokens of the prefixed path dropped; Go returns
the zero value "" alongside an error, which the source then treats as an
unresolved module. -/
def getattrModule (fs : HubfsCfg) (obs : Obstack) (path : String) : String :=
  let p := joinSlash ((split (goJoin2 fs.pfx path)).drop 3)
  let module :=
    match obs.repository with
    | some repo =>
      match repo.getModule obs.ref p true with
      | .ok m => m
      | .error _ => ""
    | none => ""
  trimPfx module (trimSfx fs.pfx "/")

/-- hubfs.go getattr: project a tree entry (or a synthetic directory when
absent) onto a stat, returning the symlink target as well. -/
def getattr (fs : HubfsCfg) (obs : Obstack) (entry : Option TreeEntry)
    (path : String) (now : Nat) : String × Stat :=
  match entry with
  | some e =>
    let stat := fuseStat e.mode e.size (obsTreeTime obs)
    if e.mode &&& S_IFMT = S_IFLNK then
      let target := e.target
      (target, { stat with size := (target.utf8ByteSize : Int) })
    else if e.mode &&& S_IFMT = 0o160000 then
      let module := getattrModule fs obs path
      let target := if module ≠ "" then module ++ "/" ++ e.target else e.target
      (target, { stat with size := (target.utf8ByteSize : Int) })
    else ("", stat)
  | none => ("", fuseStat S_IFDIR 0 now)

/-- hubfs.go Readpath: resolve with normalization, then force errc to 0
and return the joined partially-normalized tokens with the mount prefix
trimmed. -/
def Readpath (fs : HubfsCfg) (path : String) : Int × String :=
  match openex fs path true with
  | (_, _, normpath, _) =>
    let target := "/" ++ goJoinList normpath
    (0, trimPfx target (trimSfx fs.pfx "/"))

/-- hubfs.go Opendir: resolve without normalization; on success issue the
current counter value as the handle, install the obstack and increment
the counter (uint64, hence modulo 2^64).  The resolver never returns a
zero errno with no obstack, so branching on the obstack matches the
source branching on errc. -/
def Opendir (fs : HubfsCfg) (st : FsState) (path : String) : Int × Nat × FsState :=
  match openex fs path false with
  | (errc, none, _, _) => (errc, 0, st)
  | (_, some obs, _, _) =>
    (0, st.fh, { fh := (st.fh + 1) % 2 ^ 64, openmap := (st.fh, obs) :: st.openmap })

/-- hubfs.go Open: identical allocation logic to Opendir; flags are
accepted and ignored. -/
def Open (fs : HubfsCfg) (st : FsState) (path : String) (flags : Int) : Int × Nat × FsState :=
  match openex fs path false with
  | (errc, none, _, _) => (errc, 0, st)
  | (_, some obs, _, _) =>
    (0, st.fh, { fh := (st.fh + 1) % 2 ^ 64, openmap := (st.fh, obs) :: st.openmap })

/-- Run a sequence of Open (true) and Opendir (false) requests from a
state, collecting the handles issued by the successful ones. -/
def runOpens (fs : HubfsCfg) : FsState → List (Bool × String) → List Nat × FsState
  | st, [] => ([], st)
  | st, (useOpen, p) :: rest =>
    let r := if useOpen then Open fs st p 0 else Opendir fs st p
    let next := runOpens fs r.2.2 rest
    ((if r.1 = 0 then [r.2.1] else []) ++ next.1, next.2)

/-- The directory stat Readdir synthesizes for dot entries (hubfs.go lines
288-293): ref tree time when an entry is present, wall clock otherwise. -/
def readdirStat (obs : Obstack) (now : Nat) : Stat :=
  match obs.entry with
  | some _ => fuseStat S_IFDIR 0 (obsTreeTime obs)
  | none => fuseStat S_IFDIR 0 now

/-- The emission loop over prepared child entries: fill each one in order
and stop right after the first one on which fill signals a full buffer. -/
def fillLoop (fill : String → Stat → Bool) : List (String × Stat) → List (String × Stat)
  | [] => []
  | (n, s) :: rest => if fill n s then (n, s) :: fillLoop fill rest else [(n, s)]

/-- The child entries Readdir prepares for a handle, before the fill loop:
branch on the deepest populated slot exactly as the source does (ref first,
then repository, then owner, then root); a failed enumeration call yields
no children. -/
def readdirChildren (fs : HubfsCfg) (obs : Obstack) (path : String) (now : Nat) :
    List (String × Stat) :=
  let stat0 := readdirStat obs now
  match obs.ref with
  | some ref =>
    match obs.repository with
    | some repo =>
      match repo.getTree (some ref) obs.entry with
      | .ok lst => lst.map fun elm =>
          (elm.name, (getattr fs obs (some elm) (goJoin2 path elm.name) now).2)
      | .error _ => []
    | none => []
  | none =>
    match obs.repository with
    | some repo =>
      match repo.getRefs with
      | .ok lst => lst.filterMap fun elm =>
          let r := elm.name
          let n := trimPfx r "refs/heads/"
          if r = n then none else some (replaceAllC n '/' ' ', stat0)
      | .error _ => []
    | none =>
      match obs.owner with
      | some o =>
        match fs.client.getRepositories o with
        | .ok lst => lst.map fun repo => (repo.name, stat0)
        | .error _ => []
      | none =>
        match fs.client.getOwners with
        | .ok lst => lst.map fun o => (o.name, stat0)
        | .error _ => []

/-- hubfs.go Readdir: look the handle up (unknown handle is ENOENT), emit
dot and dotdot with the synthesized directory stat regardless of fill's
answer, then emit the children through the fill loop.  Enumeration errors
are swallowed: errc is 0 whenever the handle is known. -/
def Readdir (fs : HubfsCfg) (st : FsState) (now : Nat) (fill : String → Stat → Bool)
    (path : String) (fh : Nat) : Int × List (String × Stat) :=
  match lookupMap st.openmap fh with
  | none => (-ENOENT, [])
  | some obs =>
    let stat0 := readdirStat obs now
    (0, (".", stat0) :: ("..", stat0) :: fillLoop fill (readdirChildren fs obs path now))

/-! ## Ghost measures over the event trace and the obstack -/

/-- One when an optional slot is held, zero otherwise. -/
def heldN {α : Type} (o : Option α) : Nat :=
  if o.isSome then 1 else 0

/-- Number of successful OpenOwner calls in a trace. -/
def cntOOwn (evs : List Ev) : Nat :=
  evs.countP fun e => match e with | .openOwnerC _ true => true | _ => false

/-- Number of CloseOwner calls in a trace. -/
def cntCOwn (evs : List Ev) : Nat :=
  evs.countP fun e => match e with | .closeOwner => true | _ => false

/-- Number of successful OpenRepository calls in a trace. -/
def cntORep (evs : List Ev) : Nat :=
  evs.countP fun e => match e with | .openRepoC _ true => true | _ => false

/-- Number of CloseRepository calls in a trace. -/
def cntCRep (evs : List Ev) : Nat :=
  evs.countP fun e => match e with | .closeRepo => true | _ => false

/-- The obstack is populated exactly to depth n: owner from depth 1 on,
repository from depth 2, ref from depth 3, entry from depth 4. -/
def pop (n : Nat) (obs : Obstack) : Prop :=
  (obs.owner.isSome ↔ 1 ≤ n) ∧ (obs.repository.isSome ↔ 2 ≤ n) ∧
    (obs.ref.isSome ↔ 3 ≤ n) ∧ (obs.entry.isSome ↔ 4 ≤ n)

/-! ## Concrete fixtures used by witnesses and counterexamples -/

/-- A provider client on which every call reports not-found. -/
def clientNone : Client :=
  { openOwner := fun _ => .error .notFound,
    openRepository := fun _ _ => .error .notFound,
    getRepositories := fun _ => .error .notFound,
    getOwners := .error .notFound }

/-- A configuration over the not-found client with the default mount
prefix. -/
def cfgNone : HubfsCfg :=
  { client := clientNone, pfx := "/" }

/-- A concrete ref fixture under refs/heads. -/
def refMain : Ref :=
  { name := "refs/heads/main", treeTime := 7 }

/-- A concrete repository whose listing holds a head, a tag and a slashed
head. -/
def repoMain : Repository :=
  { name := "Project",
    getRefs := .ok [refMain, { name := "refs/tags/v1.0", treeTime := 7 },
      { name := "refs/heads/feature/x", treeTime := 7 }],
    getRef := fun n => if n = "refs/heads/main" then .ok refMain else .error .notFound,
    getTempRef := fun _ => .error .notFound,
    getTree := fun _ _ => .ok [],
    getTreeEntry := fun _ _ _ => .error .notFound,
    getModule := fun _ _ _ => .error .notFound }

/-- A concrete repository whose ref enumeration fails with an I/O error. -/
def repoFailRefs : Repository :=
  { repoMain with getRefs := .error (.other "io failure") }

/-- A repository-level obstack over repoMain (owner and repository held,
no ref yet). -/
def obsRepo : Obstack :=
  { owner := some { name := "alice" }, repository := some repoMain }

/-- A repository-level obstack whose ref enumeration fails. -/
def obsFail : Obstack :=
  { owner := some { name := "alice" }, repository := some repoFailRefs }

/-- A state holding obsRepo at handle 0. -/
def stRepo : FsState :=
  { fh := 1, openmap := [(0, obsRepo)] }

/-- A state holding obsFail at handle 0. -/
def stFail : FsState :=
  { fh := 1, openmap := [(0, obsFail)] }

/-! ## C1: executable-bit projection in fuseStat -/

/-- C1 (code bug evidence): fuseStat projects the non-executable regular
git mode 100644 to S_IFREG plus 0755, not S_IFREG plus 0644: the source
overwrites mode with S_IFREG | 0644 before testing its 0400 bit, so the
upgrade branch always fires and the executable bit of the tree entry is
not faithful in the projection. -/
theorem fuseStatDropsExecBit :
    (fuseStat 0o100644 0 0).mode = S_IFREG ||| 0o755 ∧
      (fuseStat 0o100644 0 0).mode ≠ S_IFREG ||| 0o644 := by
  constructor
  · rfl
  · decide

/-! ## C2: tokenizer on "/" and on trailing slashes -/

/-- C2 (counterexample): with the default mount prefix, the path "/a/"
tokenizes to the single token "a"; no empty token is preserved, because
path.Join cleans the trailing slash away before split runs. -/
theorem tokenizeDropsTrailingEmpty :
    tokenize "/" "/a/" = ["a"] ∧ "" ∉ tokenize "/" "/a/" := by
  constructor
  · rfl
  · decide

/-- C2 (amended): with the default mount prefix, "/" tokenizes to the
empty sequence; the split function itself does preserve a trailing empty
component, but the composed tokenizer does not, since path.Join cleans
the joined path first: "/a/" yields just ["a"]. -/
theorem tokenizeRootAndTrailing :
    tokenize "/" "/" = [] ∧ split "/a/" = ["a", ""] ∧ tokenize "/" "/a/" = ["a"] := by
  exact ⟨rfl, rfl, rfl⟩

/-! ## C3: Readpath swallows resolution errors -/

/-- C3: for every configuration and input path, Readpath returns errc 0 -
even when resolution failed partway - together with "/" joined with the
tokens as normalized so far by the resolver, with the mount prefix
trimmed from the front. -/
theorem readpathSwallowsErrors (fs : HubfsCfg) (path : String) :
    Readpath fs path =
      (0, trimPfx ("/" ++ goJoinList (openex fs path true).2.2.1) (trimSfx fs.pfx "/")) := by
  rcases hx : openex fs path true with ⟨errc, res, normpath, evs⟩
  simp [Readpath, hx]

/-! ## C5: depth-0 admissibility filter short-circuits -/

/-- C5: whenever the depth-0 token of the (prefix-joined) path contains a
dot or equals HEAD, openex returns -ENOENT with no obstack, the tokens
unchanged and an empty event trace: no provider call at all is made,
whatever the provider is. -/
theorem openexRejectsDottedOwner (fs : HubfsCfg) (path : String) (norm : Bool)
    (t : String) (rest : List String)
    (htoks : tokenize fs.pfx path = t :: rest)
    (hbad : t.data.any (fun r => r = '.') = true ∨ t = "HEAD") :
    openex fs path norm = (-ENOENT, none, t :: rest, []) := by
  have hb : hasDotOrHead t = true := by
    rcases hbad with h | h
    · simp [hasDotOrHead, h]
    · simp [hasDotOrHead, h]
  unfold openex
  rw [htoks]
  simp [openexLoop, openexStep, hb, releaseEvs, fuseErrc]

/-- C5 witness: the probe path /.git is rejected as not-found with an
empty provider-call trace. -/
theorem openexRejectsDottedOwnerW :
    tokenize cfgNone.pfx "/.git" = [".git"] ∧
      openex cfgNone "/.git" false = (-ENOENT, none, [".git"], []) :=
  ⟨rfl, openexRejectsDottedOwner cfgNone "/.git" false ".git" [] rfl
    (Or.inl (by decide))⟩

/-! ## C9: depth-2 ref fallback chain -/

/-- C9: at depth 2 openex decodes spaces to slashes in the token, asks
for refs/heads/ first, falls back to refs/tags/ exactly when the heads
lookup reports not-found, falls back to GetTempRef exactly when the tags
lookup also reports not-found, treats a temp-ref success as found, and
aborts the chain on any other provider error; the event trace records
precisely the calls of the chain. -/
theorem depth2FallbackChain (fs : HubfsCfg) (norm : Bool) (c : String) (obs : Obstack)
    (repo : Repository) (hrepo : obs.repository = some repo) :
    (∀ ref, repo.getRef ("refs/heads/" ++ decodeRefToken c) = .ok ref →
      openexStep fs norm 2 c obs =
        ({ obs with ref := some ref }, none, if norm then encodeRefName ref.name else c,
          [.getRefE ("refs/heads/" ++ decodeRefToken c)])) ∧
    (∀ e, e ≠ Err.notFound →
      repo.getRef ("refs/heads/" ++ decodeRefToken c) = .error e →
      openexStep fs norm 2 c obs =
        ({ obs with ref := none }, some e, c,
          [.getRefE ("refs/heads/" ++ decodeRefToken c)])) ∧
    (∀ ref, repo.getRef ("refs/heads/" ++ decodeRefToken c) = .error .notFound →
      repo.getRef ("refs/tags/" ++ decodeRefToken c) = .ok ref →
      openexStep fs norm 2 c obs =
        ({ obs with ref := some ref }, none, if norm then encodeRefName ref.name else c,
          [.getRefE ("refs/heads/" ++ decodeRefToken c),
           .getRefE ("refs/tags/" ++ decodeRefToken c)])) ∧
    (∀ e, e ≠ Err.notFound →
      repo.getRef ("refs/heads/" ++ decodeRefToken c) = .error .notFound →
      repo.getRef ("refs/tags/" ++ decodeRefToken c) = .error e →
      openexStep fs norm 2 c obs =
        ({ obs with ref := none }, some e, c,
          [.getRefE ("refs/heads/" ++ decodeRefToken c),
           .getRefE ("refs/tags/" ++ decodeRefToken c)])) ∧
    (∀ ref, repo.getRef ("refs/heads/" ++ decodeRefToken c) = .error .notFound →
      repo.getRef ("refs/tags/" ++ decodeRefToken c) = .error .notFound →
      repo.getTempRef (decodeRefToken c) = .ok ref →
      openexStep fs norm 2 c obs =
        ({ obs with ref := some ref }, none, if norm then encodeRefName ref.name else c,
          [.getRefE ("refs/heads/" ++ decodeRefToken c),
           .getRefE ("refs/tags/" ++ decodeRefToken c),
           .getTempRefE (decodeRefToken c)])) ∧
    (∀ e, repo.getRef ("refs/heads/" ++ decodeRefToken c) = .error .notFound →
      repo.getRef ("refs/tags/" ++ decodeRefToken c) = .error .notFound →
      repo.getTempRef (decodeRefToken c) = .error e →
      openexStep fs norm 2 c obs =
        ({ obs with ref := none }, some e, c,
          [.getRefE ("refs/heads/" ++ decodeRefToken c),
           .getRefE ("refs/tags/" ++ decodeRefToken c),
           .getTempRefE (decodeRefToken c)])) := by
  refine ⟨?_, ?_, ?_, ?_, ?_, ?_⟩
  · intro ref h
    simp [openexStep, hrepo, h]
  · intro e hne h
    cases e with
    | notFound => exact absurd rfl hne
    | other msg => simp [openexStep, hrepo, h]
  · intro ref h1 h2
    simp [openexStep, hrepo, h1, h2]
  · intro e hne h1 h2
    cases e with
    | notFound => exact absurd rfl hne
    | other msg => simp [openexStep, hrepo, h1, h2]
  · intro ref h1 h2 h3
    simp [openexStep, hrepo, h1, h2, h3]
  · intro e h1 h2 h3
    cases e with
    | notFound => simp [openexStep, hrepo, h1, h2, h3]
    | other msg => simp [openexStep, hrepo, h1, h2, h3]

/-- C9 witness: on repoMain the token main resolves on the first link of
the chain, with exactly one GetRef call recorded. -/
theorem depth2FallbackChainW :
    repoMain.getRef ("refs/heads/" ++ decodeRefToken "main") = .ok refMain ∧
      openexStep cfgNone false 2 "main" obsRepo =
        ({ obsRepo with ref := some refMain }, none, "main",
          [.getRefE ("refs/heads/" ++ decodeRefToken "main")]) :=
  ⟨rfl, (depth2FallbackChain cfgNone false "main" obsRepo repoMain rfl).1 refMain rfl⟩

/-! ## C7: openex acquires-all-or-releases-all -/

theorem fuseErrcNeZero (e : Err) : fuseErrc e ≠ 0 := by
  cases e
  · decide
  · exact (by decide : (-EIOE : Int) ≠ 0)

theorem cntOOwnAppend (a b : List Ev) : cntOOwn (a ++ b) = cntOOwn a + cntOOwn b :=
  List.countP_append _ _ _

theorem cntCOwnAppend (a b : List Ev) : cntCOwn (a ++ b) = cntCOwn a + cntCOwn b :=
  List.countP_append _ _ _

theorem cntORepAppend (a b : List Ev) : cntORep (a ++ b) = cntORep a + cntORep b :=
  List.countP_append _ _ _

theorem cntCRepAppend (a b : List Ev) : cntCRep (a ++ b) = cntCRep a + cntCRep b :=
  List.countP_append _ _ _

theorem cntCOwnRelease (obs : Obstack) : cntCOwn (releaseEvs obs) = heldN obs.owner := by
  unfold releaseEvs heldN
  cases h1 : obs.repository.isSome <;> cases h2 : obs.owner.isSome <;>
    simp [cntCOwn, List.countP_cons, List.countP_nil, List.countP_append]

theorem cntCRepRelease (obs : Obstack) : cntCRep (releaseEvs obs) = heldN obs.repository := by
  unfold releaseEvs heldN
  cases h1 : obs.repository.isSome <;> cases h2 : obs.owner.isSome <;>
    simp [cntCRep, List.countP_cons, List.countP_nil, List.countP_append]

theorem cntOOwnRelease (obs : Obstack) : cntOOwn (releaseEvs obs) = 0 := by
  unfold releaseEvs
  cases h1 : obs.repository.isSome <;> cases h2 : obs.owner.isSome <;>
    simp [cntOOwn, List.countP_cons, List.countP_nil, List.countP_append]

theorem cntORepRelease (obs : Obstack) : cntORep (releaseEvs obs) = 0 := by
  unfold releaseEvs
  cases h1 : obs.repository.isSome <;> cases h2 : obs.owner.isSome <;>
    simp [cntORep, List.countP_cons, List.countP_nil, List.countP_append]

/-- Per-step accounting for the resolver: a step emits no close events,
its successful-open events account exactly for the newly held slots, and
a successful step advances the population depth by one. -/
theorem stepSpec {fs : HubfsCfg} {norm : Bool} {i : Nat} {c : String} {obs obs1 : Obstack}
    {erropt : Option Err} {c1 : String} {evs1 : List Ev}
    (hpop : pop i obs)
    (hstep : openexStep fs norm i c obs = (obs1, erropt, c1, evs1)) :
    cntOOwn evs1 + heldN obs.owner = heldN obs1.owner ∧
      cntORep evs1 + heldN obs.repository = heldN obs1.repository ∧
      cntCOwn evs1 = 0 ∧ cntCRep evs1 = 0 ∧
      (erropt = none → pop (i + 1) obs1) := by
  obtain ⟨ow, rp, rf, en⟩ := obs
  simp only [pop] at hpop
  obtain ⟨hw, hr, hf, he⟩ := hpop
  cases i with
  | zero =>
    have hwn : ow = none := by
      cases ow with
      | none => rfl
      | some o => simp at hw
    have hrn : rp = none := by
      cases rp with
      | none => rfl
      | some r => simp at hr
    subst hwn hrn
    simp only [openexStep] at hstep
    by_cases hc : hasDotOrHead c
    · simp only [hc, if_true, Prod.mk.injEq] at hstep
      obtain ⟨rfl, rfl, rfl, rfl⟩ := hstep
      simp [cntOOwn, cntORep, cntCOwn, cntCRep, heldN, pop]
    · simp only [hc, if_false, Bool.false_eq_true] at hstep
      cases hoo : fs.client.openOwner c with
      | ok o =>
        rw [hoo] at hstep
        simp only [] at hstep
        simp only [Prod.mk.injEq] at hstep
        obtain ⟨rfl, rfl, rfl, rfl⟩ := hstep
        refine ⟨by simp [cntOOwn, heldN, List.countP_cons, List.countP_nil], ?_, ?_, ?_, ?_⟩
        · simp [cntORep, heldN, List.countP_cons, List.countP_nil]
        · simp [cntCOwn, List.countP_cons, List.countP_nil]
        · simp [cntCRep, List.countP_cons, List.countP_nil]
        · intro
          simp only [pop]
          refine ⟨by simp, by simpa using hr, by simpa using hf, by simpa using he⟩
      | error e =>
        rw [hoo] at hstep
        simp only [] at hstep
        simp only [Prod.mk.injEq] at hstep
        obtain ⟨rfl, rfl, rfl, rfl⟩ := hstep
        refine ⟨?_, ?_, ?_, ?_, by intro h; cases h⟩
        · simp [cntOOwn, heldN, List.countP_cons, List.countP_nil]
        · simp [cntORep, heldN, List.countP_cons, List.countP_nil]
        · simp [cntCOwn, List.countP_cons, List.countP_nil]
        · simp [cntCRep, List.countP_cons, List.countP_nil]
  | succ i1 =>
    cases i1 with
    | zero =>
      obtain ⟨o, rfl⟩ : ∃ o, ow = some o := by
        cases ow with
        | none => simp at hw
        | some o => exact ⟨o, rfl⟩
      have hrn : rp = none := by
        cases rp with
        | none => rfl
        | some r => simp at hr
      subst hrn
      simp only [openexStep] at hstep
      cases hor : fs.client.openRepository o c with
      | ok r =>
        rw [hor] at hstep
        simp only [] at hstep
        simp only [Prod.mk.injEq] at hstep
        obtain ⟨rfl, rfl, rfl, rfl⟩ := hstep
        refine ⟨?_, ?_, ?_, ?_, ?_⟩
        · simp [cntOOwn, heldN, List.countP_cons, List.countP_nil]
        · simp [cntORep, heldN, List.countP_cons, List.countP_nil]
        · simp [cntCOwn, List.countP_cons, List.countP_nil]
        · simp [cntCRep, List.countP_cons, List.countP_nil]
        · intro
          simp only [pop]
          refine ⟨by simp, by simp, by simpa using hf, by simpa using he⟩
      | error e =>
        rw [hor] at hstep
        simp only [] at hstep
        simp only [Prod.mk.injEq] at hstep
        obtain ⟨rfl, rfl, rfl, rfl⟩ := hstep
        refine ⟨?_, ?_, ?_, ?_, by intro h; cases h⟩
        · simp [cntOOwn, heldN, List.countP_cons, List.countP_nil]
        · simp [cntORep, heldN, List.countP_cons, List.countP_nil]
        · simp [cntCOwn, List.countP_cons, List.countP_nil]
        · simp [cntCRep, List.countP_cons, List.countP_nil]
    | succ i2 =>
      cases i2 with
      | zero =>
        obtain ⟨o, rfl⟩ : ∃ o, ow = some o := by
          cases ow with
          | none => simp at hw
          | some o => exact ⟨o, rfl⟩
        obtain ⟨r, rfl⟩ : ∃ r, rp = some r := by
          cases rp with
          | none => simp at hr
          | some r => exact ⟨r, rfl⟩
        simp only [openexStep] at hstep
        have hfin : ∀ (rfx : Option Ref) (eo : Option Err),
            obs1 = { owner := some o, repository := some r, ref := rfx, entry := en } →
            erropt = eo →
            cntOOwn evs1 = 0 → cntORep evs1 = 0 → cntCOwn evs1 = 0 → cntCRep evs1 = 0 →
            (eo = none → rfx.isSome) →
            cntOOwn evs1 + heldN (some o) = heldN obs1.owner ∧
              cntORep evs1 + heldN (some r) = heldN obs1.repository ∧
              cntCOwn evs1 = 0 ∧ cntCRep evs1 = 0 ∧
              (erropt = none → pop (2 + 1) obs1) := by
          intro rfx eo hobs herr h1 h2 h3 h4 hsome
          subst hobs herr
          refine ⟨by simp [h1, heldN], by simp [h2, heldN], h3, h4, ?_⟩
          intro hnone
          simp only [pop]
          refine ⟨by simp, by simp, ?_, by simpa using he⟩
          simpa using hsome hnone
        cases hg1 : r.getRef ("refs/heads/" ++ decodeRefToken c) with
        | ok ref =>
          rw [hg1] at hstep
          simp only [] at hstep
          simp only [Prod.mk.injEq] at hstep
          obtain ⟨rfl, rfl, rfl, rfl⟩ := hstep
          exact hfin _ _ rfl rfl (by simp [cntOOwn, List.countP_cons, List.countP_nil])
            (by simp [cntORep, List.countP_cons, List.countP_nil])
            (by simp [cntCOwn, List.countP_cons, List.countP_nil])
            (by simp [cntCRep, List.countP_cons, List.countP_nil]) (by simp)
        | error e1 =>
          rw [hg1] at hstep
          cases e1 with
          | notFound =>
            cases hg2 : r.getRef ("refs/tags/" ++ decodeRefToken c) with
            | ok ref =>
              rw [hg2] at hstep
              simp only [] at hstep
              simp only [Prod.mk.injEq] at hstep
              obtain ⟨rfl, rfl, rfl, rfl⟩ := hstep
              exact hfin _ _ rfl rfl (by simp [cntOOwn, List.countP_cons, List.countP_nil])
                (by simp [cntORep, List.countP_cons, List.countP_nil])
                (by simp [cntCOwn, List.countP_cons, List.countP_nil])
                (by simp [cntCRep, List.countP_cons, List.countP_nil]) (by simp)
            | error e2 =>
              rw [hg2] at hstep
              cases e2 with
              | notFound =>
                cases hg3 : r.getTempRef (decodeRefToken c) with
                | ok ref =>
                  rw [hg3] at hstep
                  simp only [] at hstep
                  simp only [Prod.mk.injEq] at hstep
                  obtain ⟨rfl, rfl, rfl, rfl⟩ := hstep
                  exact hfin _ _ rfl rfl (by simp [cntOOwn, List.countP_cons, List.countP_nil])
                    (by simp [cntORep, List.countP_cons, List.countP_nil])
                    (by simp [cntCOwn, List.countP_cons, List.countP_nil])
                    (by simp [cntCRep, List.countP_cons, List.countP_nil]) (by simp)
                | error e3 =>
                  rw [hg3] at hstep
                  simp only [] at hstep
                  simp only [Prod.mk.injEq] at hstep
                  obtain ⟨rfl, rfl, rfl, rfl⟩ := hstep
                  exact hfin _ _ rfl rfl (by simp [cntOOwn, List.countP_cons, List.countP_nil])
                    (by simp [cntORep, List.countP_cons, List.countP_nil])
                    (by simp [cntCOwn, List.countP_cons, List.countP_nil])
                    (by simp [cntCRep, List.countP_cons, List.countP_nil]) (by simp)
              | other m2 =>
                simp only [] at hstep
                simp only [Prod.mk.injEq] at hstep
                obtain ⟨rfl, rfl, rfl, rfl⟩ := hstep
                exact hfin _ _ rfl rfl (by simp [cntOOwn, List.countP_cons, List.countP_nil])
                  (by simp [cntORep, List.countP_cons, List.countP_nil])
                  (by simp [cntCOwn, List.countP_cons, List.countP_nil])
                  (by simp [cntCRep, List.countP_cons, List.countP_nil]) (by simp)
          | other m1 =>
            simp only [] at hstep
            simp only [Prod.mk.injEq] at hstep
            obtain ⟨rfl, rfl, rfl, rfl⟩ := hstep
            exact hfin _ _ rfl rfl (by simp [cntOOwn, List.countP_cons, List.countP_nil])
              (by simp [cntORep, List.countP_cons, List.countP_nil])
              (by simp [cntCOwn, List.countP_cons, List.countP_nil])
              (by simp [cntCRep, List.countP_cons, List.countP_nil]) (by simp)
      | succ i3 =>
        obtain ⟨o, rfl⟩ : ∃ o, ow = some o := by
          cases ow with
          | none => simp at hw
          | some o => exact ⟨o, rfl⟩
        obtain ⟨r, rfl⟩ : ∃ r, rp = some r := by
          cases rp with
          | none => simp at hr
          | some r => exact ⟨r, rfl⟩
        obtain ⟨f0, rfl⟩ : ∃ f0, rf = some f0 := by
          cases rf with
          | none => simp at hf
          | some f0 => exact ⟨f0, rfl⟩
        simp only [openexStep] at hstep
        cases hge : r.getTreeEntry (some f0) en c with
        | ok e2 =>
          rw [hge] at hstep
          simp only [] at hstep
          simp only [Prod.mk.injEq] at hstep
          obtain ⟨rfl, rfl, rfl, rfl⟩ := hstep
          refine ⟨?_, ?_, ?_, ?_, ?_⟩
          · simp [cntOOwn, heldN, List.countP_cons, List.countP_nil]
          · simp [cntORep, heldN, List.countP_cons, List.countP_nil]
          · simp [cntCOwn, List.countP_cons, List.countP_nil]
          · simp [cntCRep, List.countP_cons, List.countP_nil]
          · intro
            simp only [pop]
            refine ⟨by simp, by simp, by simp, by simp⟩
        | error e =>
          rw [hge] at hstep
          simp only [] at hstep
          simp only [Prod.mk.injEq] at hstep
          obtain ⟨rfl, rfl, rfl, rfl⟩ := hstep
          refine ⟨?_, ?_, ?_, ?_, by intro h; cases h⟩
          · simp [cntOOwn, heldN, List.countP_cons, List.countP_nil]
          · simp [cntORep, heldN, List.countP_cons, List.countP_nil]
          · simp [cntCOwn, List.countP_cons, List.countP_nil]
          · simp [cntCRep, List.countP_cons, List.countP_nil]

/-- Loop accounting for the resolver: starting from an obstack populated
to the current index, the loop either fails, yielding no obstack and a
trace whose closes account for every successful open plus the initially
held slots, or succeeds with an obstack populated to index plus token
count while closing nothing. -/
theorem loopSpec (fs : HubfsCfg) (norm : Bool) (toks : List String) :
    ∀ (i : Nat) (obs : Obstack), pop i obs →
      ∀ errc res lst evs, openexLoop fs norm i obs toks = (errc, res, lst, evs) →
        (errc ≠ 0 ∧ res = none ∧
          cntCOwn evs = cntOOwn evs + heldN obs.owner ∧
          cntCRep evs = cntORep evs + heldN obs.repository) ∨
        (errc = 0 ∧ ∃ obs2, res = some obs2 ∧ pop (i + toks.length) obs2 ∧
          cntCOwn evs = 0 ∧ cntCRep evs = 0 ∧
          heldN obs2.owner = heldN obs.owner + cntOOwn evs ∧
          heldN obs2.repository = heldN obs.repository + cntORep evs) := by
  induction toks with
  | nil =>
    intro i obs hpop errc res lst evs h
    simp only [openexLoop, Prod.mk.injEq] at h
    obtain ⟨rfl, rfl, rfl, rfl⟩ := h
    right
    exact ⟨rfl, obs, rfl, by simpa using hpop,
      by simp [cntCOwn], by simp [cntCRep], by simp [cntOOwn], by simp [cntORep]⟩
  | cons c rest ih =>
    intro i obs hpop errc res lst evs h
    simp only [openexLoop] at h
    rcases hstep : openexStep fs norm i c obs with ⟨obs1, erropt, c1, evs1⟩
    rw [hstep] at h
    have hs := stepSpec hpop hstep
    cases erropt with
    | some e =>
      simp only [] at h
      simp only [Prod.mk.injEq] at h
      obtain ⟨rfl, rfl, rfl, rfl⟩ := h
      left
      refine ⟨fuseErrcNeZero e, rfl, ?_, ?_⟩
      · rw [cntCOwnAppend, cntOOwnAppend, cntCOwnRelease, cntOOwnRelease]
        omega
      · rw [cntCRepAppend, cntORepAppend, cntCRepRelease, cntORepRelease]
        omega
    | none =>
      simp only [] at h
      rcases hloop : openexLoop fs norm (i + 1) obs1 rest with ⟨errc2, res2, lst2, evs2⟩
      rw [hloop] at h
      simp only [Prod.mk.injEq] at h
      obtain ⟨rfl, rfl, rfl, rfl⟩ := h
      have hp1 := hs.2.2.2.2 rfl
      rcases ih (i + 1) obs1 hp1 errc2 res2 lst2 evs2 hloop with
        ⟨hne, rfl, hbo, hbr⟩ | ⟨rfl, obs2, rfl, hpop2, hco, hcr, hho, hhr⟩
      · left
        refine ⟨hne, rfl, ?_, ?_⟩
        · rw [cntCOwnAppend, cntOOwnAppend]
          omega
        · rw [cntCRepAppend, cntORepAppend]
          omega
      · right
        refine ⟨rfl, obs2, rfl, ?_, ?_, ?_, ?_, ?_⟩
        · have harith : i + (c :: rest).length = i + 1 + rest.length := by
            simp [List.length_cons]
            omega
          rw [harith]
          exact hpop2
        · rw [cntCOwnAppend]
          omega
        · rw [cntCRepAppend]
          omega
        · rw [cntOOwnAppend]
          omega
        · rw [cntORepAppend]
          omega

/-- C7: openex is all-or-nothing about provider resources: it either
returns a non-zero errno with no obstack and a trace in which every
successfully opened owner and repository has been closed, or returns
zero with an obstack populated exactly to the depth of the token
sequence, having closed nothing. -/
theorem openexAtomicResources (fs : HubfsCfg) (path : String) (norm : Bool) :
    ((openex fs path norm).1 ≠ 0 ∧ (openex fs path norm).2.1 = none ∧
      cntCOwn (openex fs path norm).2.2.2 = cntOOwn (openex fs path norm).2.2.2 ∧
      cntCRep (openex fs path norm).2.2.2 = cntORep (openex fs path norm).2.2.2) ∨
    ((openex fs path norm).1 = 0 ∧
      ∃ obs, (openex fs path norm).2.1 = some obs ∧
        pop (tokenize fs.pfx path).length obs ∧
        cntCOwn (openex fs path norm).2.2.2 = 0 ∧
        cntCRep (openex fs path norm).2.2.2 = 0) := by
  have hpop0 : pop 0 ({} : Obstack) := by
    simp [pop]
  rcases h : openexLoop fs norm 0 {} (tokenize fs.pfx path) with ⟨errc, res, lst, evs⟩
  have hx : openex fs path norm = (errc, res, lst, evs) := by
    rw [openex.eq_def, h]
  rcases loopSpec fs norm (tokenize fs.pfx path) 0 {} hpop0 errc res lst evs h with
    ⟨hne, rfl, hbo, hbr⟩ | ⟨rfl, obs2, rfl, hpop2, hco, hcr, hho, hhr⟩
  · left
    rw [hx]
    refine ⟨hne, rfl, ?_, ?_⟩
    · simpa [heldN] using hbo
    · simpa [heldN] using hbr
  · right
    rw [hx]
    exact ⟨rfl, obs2, rfl, by simpa using hpop2, hco, hcr⟩

/-! ## C4: handle issuance -/

/-- The resolver returns either a non-zero errno with no obstack, or a
zero errno with an obstack. -/
theorem openexSplit (fs : HubfsCfg) (path : String) (norm : Bool) :
    ((openex fs path norm).1 ≠ 0 ∧ (openex fs path norm).2.1 = none) ∨
    ((openex fs path norm).1 = 0 ∧ ∃ obs, (openex fs path norm).2.1 = some obs) := by
  have hpop0 : pop 0 ({} : Obstack) := by
    simp [pop]
  rcases h : openexLoop fs norm 0 {} (tokenize fs.pfx path) with ⟨errc, res, lst, evs⟩
  have hx : openex fs path norm = (errc, res, lst, evs) := by
    rw [openex.eq_def, h]
  rcases loopSpec fs norm (tokenize fs.pfx path) 0 {} hpop0 errc res lst evs h with
    ⟨hne, rfl, _, _⟩ | ⟨rfl, obs2, rfl, _, _, _⟩
  · left
    rw [hx]
    exact ⟨hne, rfl⟩
  · right
    rw [hx]
    exact ⟨rfl, obs2, rfl⟩

/-- Allocation behavior of Opendir: on failure the state is unchanged; on
success the issued handle is the current counter and the counter advances
by one modulo 2^64. -/
theorem allocOpendir (fs : HubfsCfg) (st : FsState) (p : String) :
    ((Opendir fs st p).1 ≠ 0 ∧ (Opendir fs st p).2.2 = st) ∨
    ((Opendir fs st p).1 = 0 ∧ (Opendir fs st p).2.1 = st.fh ∧
      (Opendir fs st p).2.2.fh = (st.fh + 1) % 2 ^ 64) := by
  have hsplit := openexSplit fs p false
  rcases h : openex fs p false with ⟨errc, res, lst, evs⟩
  rw [h] at hsplit
  cases res with
  | none =>
    rcases hsplit with ⟨hne, _⟩ | ⟨_, obs, hobs⟩
    · left
      have hv : Opendir fs st p = (errc, 0, st) := by
        simp [Opendir, h]
      rw [hv]
      exact ⟨hne, rfl⟩
    · cases hobs
  | some obs =>
    rcases hsplit with ⟨_, hnone⟩ | ⟨hz, _, _⟩
    · cases hnone
    · right
      have hv : Opendir fs st p = (0, st.fh,
          { fh := (st.fh + 1) % 2 ^ 64, openmap := (st.fh, obs) :: st.openmap }) := by
        simp [Opendir, h]
      rw [hv]
      exact ⟨rfl, rfl, rfl⟩

/-- Allocation behavior of Open: identical to Opendir. -/
theorem allocOpen (fs : HubfsCfg) (st : FsState) (p : String) (flags : Int) :
    ((Open fs st p flags).1 ≠ 0 ∧ (Open fs st p flags).2.2 = st) ∨
    ((Open fs st p flags).1 = 0 ∧ (Open fs st p flags).2.1 = st.fh ∧
      (Open fs st p flags).2.2.fh = (st.fh + 1) % 2 ^ 64) := by
  have hsplit := openexSplit fs p false
  rcases h : openex fs p false with ⟨errc, res, lst, evs⟩
  rw [h] at hsplit
  cases res with
  | none =>
    rcases hsplit with ⟨hne, _⟩ | ⟨_, obs, hobs⟩
    · left
      have hv : Open fs st p flags = (errc, 0, st) := by
        simp [Open, h]
      rw [hv]
      exact ⟨hne, rfl⟩
    · cases hobs
  | some obs =>
    rcases hsplit with ⟨_, hnone⟩ | ⟨hz, _, _⟩
    · cases hnone
    · right
      have hv : Open fs st p flags = (0, st.fh,
          { fh := (st.fh + 1) % 2 ^ 64, openmap := (st.fh, obs) :: st.openmap }) := by
        simp [Open, h]
      rw [hv]
      exact ⟨rfl, rfl, rfl⟩

/-- The handles issued by a run of opens starting from counter value
st.fh are consecutive, as long as no wrap of the 64-bit counter can
occur within the run. -/
theorem runOpensRange (fs : HubfsCfg) (reqs : List (Bool × String)) :
    ∀ st : FsState, st.fh + (runOpens fs st reqs).1.length ≤ 2 ^ 64 →
      (runOpens fs st reqs).1 = List.range' st.fh (runOpens fs st reqs).1.length := by
  induction reqs with
  | nil =>
    intro st hlen
    simp [runOpens]
  | cons req rest ih =>
    intro st hlen
    obtain ⟨useOpen, p⟩ := req
    have halloc : ∀ r : Int × Nat × FsState,
        r = (if useOpen then Open fs st p 0 else Opendir fs st p) →
        ((r.1 ≠ 0 ∧ r.2.2 = st) ∨
          (r.1 = 0 ∧ r.2.1 = st.fh ∧ r.2.2.fh = (st.fh + 1) % 2 ^ 64)) := by
      intro r hr
      cases useOpen with
      | false =>
        rw [if_neg (by simp)] at hr
        rw [hr]
        exact allocOpendir fs st p
      | true =>
        rw [if_pos rfl] at hr
        rw [hr]
        exact allocOpen fs st p 0
    rcases halloc _ rfl with ⟨hne, hst⟩ | ⟨hz, hfh, hnext⟩
    · have hrw : runOpens fs st ((useOpen, p) :: rest) =
          ((if (if useOpen then Open fs st p 0 else Opendir fs st p).1 = 0
            then [(if useOpen then Open fs st p 0 else Opendir fs st p).2.1] else []) ++
            (runOpens fs (if useOpen then Open fs st p 0 else Opendir fs st p).2.2 rest).1,
           (runOpens fs (if useOpen then Open fs st p 0 else Opendir fs st p).2.2 rest).2) := by
        simp [runOpens]
      rw [hrw, if_neg hne, hst] at hlen ⊢
      simp only [List.nil_append]
      exact ih st (by simpa using hlen)
    · have hrw : runOpens fs st ((useOpen, p) :: rest) =
          ((if (if useOpen then Open fs st p 0 else Opendir fs st p).1 = 0
            then [(if useOpen then Open fs st p 0 else Opendir fs st p).2.1] else []) ++
            (runOpens fs (if useOpen then Open fs st p 0 else Opendir fs st p).2.2 rest).1,
           (runOpens fs (if useOpen then Open fs st p 0 else Opendir fs st p).2.2 rest).2) := by
        simp [runOpens]
      rw [hrw, if_pos hz, hfh] at hlen ⊢
      simp only [List.singleton_append, List.length_cons] at hlen ⊢
      by_cases hwrap : st.fh + 1 = 2 ^ 64
      · have hlen0 :
            (runOpens fs (if useOpen then Open fs st p 0 else Opendir fs st p).2.2 rest).1.length
              = 0 := by omega
        have htlnil := List.eq_nil_of_length_eq_zero hlen0
        rw [htlnil]
        simp [List.range'_one]
      · have hlt : st.fh + 1 < 2 ^ 64 := by omega
        have hmod : (st.fh + 1) % 2 ^ 64 = st.fh + 1 := Nat.mod_eq_of_lt hlt
        have hpre : (if useOpen then Open fs st p 0 else Opendir fs st p).2.2.fh = st.fh + 1 := by
          rw [hnext, hmod]
        have hih := ih (if useOpen then Open fs st p 0 else Opendir fs st p).2.2
          (by rw [hpre]; omega)
        rw [hpre] at hih
        rw [hih]
        simp [List.range'_succ, List.length_range']

/-- C4 (counterexample): the very first successful Opendir of a fresh
process succeeds with errc 0 and issues handle 0, which is not a
non-zero handle. -/
theorem opendirIssuesHandleZero :
    (Opendir cfgNone hubfsNew "/").1 = 0 ∧ (Opendir cfgNone hubfsNew "/").2.1 = 0 :=
  ⟨rfl, rfl⟩

/-- C4 (amended): handles are issued from a counter that starts at 0 in a
fresh process and advances by one per successful Open or Opendir (modulo
2^64), so a run of opens from a fresh state whose success count does not
exceed 2^64 issues exactly the handles 0, 1, 2, ... in order: strictly
increasing, never reused, but starting at 0 rather than non-zero. -/
theorem handlesStrictlyIncreaseFromZero (fs : HubfsCfg) (reqs : List (Bool × String))
    (h : (runOpens fs hubfsNew reqs).1.length ≤ 2 ^ 64) :
    (runOpens fs hubfsNew reqs).1 = List.range (runOpens fs hubfsNew reqs).1.length := by
  have hr := runOpensRange fs reqs hubfsNew (by simpa [hubfsNew] using h)
  simpa [hubfsNew, List.range_eq_range'] using hr

/-- C4 amended witness: two successful opendirs of the root from a fresh
state issue handles 0 then 1. -/
theorem handlesStrictlyIncreaseFromZeroW :
    (runOpens cfgNone hubfsNew [(false, "/"), (true, "/")]).1.length ≤ 2 ^ 64 ∧
      (runOpens cfgNone hubfsNew [(false, "/"), (true, "/")]).1 =
        List.range (runOpens cfgNone hubfsNew [(false, "/"), (true, "/")]).1.length :=
  ⟨by decide, handlesStrictlyIncreaseFromZero cfgNone [(false, "/"), (true, "/")] (by decide)⟩

/-! ## C6: encode after decode on slash-free filename tokens -/

/-- Mapping space-to-slash preserves and reflects list prefixes between
slash-free lists. -/
theorem isPfxMapSwap (p : List Char) :
    ∀ l : List Char, '/' ∉ p → '/' ∉ l →
      ((p.map fun ch => if ch = ' ' then '/' else ch).isPrefixOf
        (l.map fun ch => if ch = ' ' then '/' else ch)) = p.isPrefixOf l := by
  induction p with
  | nil =>
    intro l _ _
    simp [List.isPrefixOf]
  | cons a p2 ih =>
    intro l hp hl
    cases l with
    | nil =>
      simp [List.isPrefixOf]
    | cons b l2 =>
      have ha : a ≠ '/' := by
        intro hcontra
        exact hp (by simp [hcontra])
      have hb : b ≠ '/' := by
        intro hcontra
        exact hl (by simp [hcontra])
      have hp2 : '/' ∉ p2 := fun hmem => hp (List.mem_cons_of_mem _ hmem)
      have hl2 : '/' ∉ l2 := fun hmem => hl (List.mem_cons_of_mem _ hmem)
      have hhead : ((if a = ' ' then '/' else a) == (if b = ' ' then '/' else b)) = (a == b) := by
        by_cases hsa : a = ' ' <;> by_cases hsb : b = ' '
        · simp [hsa, hsb]
        · subst hsa
          have h1 : ('/' == b) = false := beq_eq_false_iff_ne.mpr (Ne.symm hb)
          have h2 : (' ' == b) = false := beq_eq_false_iff_ne.mpr (Ne.symm hsb)
          simp [hsb, h1, h2]
        · subst hsb
          have h1 : (a == '/') = false := beq_eq_false_iff_ne.mpr ha
          have h2 : (a == ' ') = false := beq_eq_false_iff_ne.mpr hsa
          simp [hsa, h1, h2]
        · simp [if_neg hsa, if_neg hsb]
      simp only [List.map_cons, List.isPrefixOf, hhead]
      rw [ih l2 hp2 hl2]

/-- Mapping space-to-slash then slash-to-space is the identity on
slash-free lists. -/
theorem mapSwapBack (l : List Char) (hl : '/' ∉ l) :
    ((l.map fun ch => if ch = ' ' then '/' else ch).map
      fun ch => if ch = '/' then ' ' else ch) = l := by
  induction l with
  | nil => rfl
  | cons a l2 ih =>
    have ha : a ≠ '/' := by
      intro hcontra
      exact hl (by simp [hcontra])
    have hl2 : '/' ∉ l2 := fun hmem => hl (List.mem_cons_of_mem _ hmem)
    simp only [List.map_cons, ih hl2, List.cons.injEq, and_true]
    by_cases hsa : a = ' '
    · simp [hsa]
    · simp [if_neg hsa, if_neg ha]

/-- C6 (counterexample): the slash-free filename token refs heads main is
not recovered by encode after decode: decoding yields refs/heads/main,
whose encoding strips the refs/heads/ prefix and returns main. -/
theorem encodeDecodeNotId :
    '/' ∉ ("refs heads main" : String).data ∧
      encodeRefName (decodeRefToken "refs heads main") ≠ "refs heads main" := by
  constructor
  · decide
  · decide

/-- C6 (amended): encode after decode is the identity on every filename
token that contains no slash and does not begin with refs heads or
refs tags followed by a space (tokens beginning so decode into the
refs/heads/ or refs/tags/ namespace and come back with the prefix
stripped). -/
theorem encodeDecodeIdOnNoSlash (c : String) (hns : '/' ∉ c.data)
    (hh : hasPfx c "refs heads " = false) (ht : hasPfx c "refs tags " = false) :
    encodeRefName (decodeRefToken c) = c := by
  obtain ⟨cd⟩ := c
  have hns' : '/' ∉ cd := hns
  have hheads : (("refs/heads/" : String).data).isPrefixOf
      (cd.map fun ch => if ch = ' ' then '/' else ch) = false := by
    have h1 : ("refs/heads/" : String).data =
        ("refs heads " : String).data.map fun ch => if ch = ' ' then '/' else ch := by
      decide
    rw [h1, isPfxMapSwap _ _ (by decide) hns']
    exact hh
  have htags : (("refs/tags/" : String).data).isPrefixOf
      (cd.map fun ch => if ch = ' ' then '/' else ch) = false := by
    have h1 : ("refs/tags/" : String).data =
        ("refs tags " : String).data.map fun ch => if ch = ' ' then '/' else ch := by
      decide
    rw [h1, isPfxMapSwap _ _ (by decide) hns']
    exact ht
  simp only [decodeRefToken, replaceAllC, encodeRefName, trimPfx]
  simp only [hheads, htags, Bool.false_eq_true, if_false, if_pos rfl]
  exact congrArg String.mk (mapSwapBack cd hns')

/-- C6 amended witness: the token feature x survives the round trip. -/
theorem encodeDecodeIdOnNoSlashW :
    ('/' ∉ ("feature x" : String).data ∧ hasPfx "feature x" "refs heads " = false ∧
      hasPfx "feature x" "refs tags " = false) ∧
      encodeRefName (decodeRefToken "feature x") = "feature x" :=
  ⟨⟨by decide, by decide, by decide⟩,
    encodeDecodeIdOnNoSlash "feature x" (by decide) (by decide) (by decide)⟩

/-! ## C8 and C10: Readdir -/

/-- A string equals itself trimmed of a non-empty prefix candidate exactly
when the candidate is not a prefix. -/
theorem trimPfxSelf (s p : String) (hp : p ≠ "") :
    s = trimPfx s p ↔ hasPfx s p = false := by
  obtain ⟨sd⟩ := s
  obtain ⟨pd⟩ := p
  have hpd : pd ≠ [] := by
    intro h
    exact hp (by rw [h])
  unfold trimPfx hasPfx
  cases hif : pd.isPrefixOf sd with
  | false =>
    simp [hif]
  | true =>
    have hpfx : pd <+: sd := List.isPrefixOf_iff_prefix.mp hif
    have hlen : pd.length ≤ sd.length := hpfx.length_le
    have hpos : 1 ≤ pd.length := by
      cases pd with
      | nil => exact absurd rfl hpd
      | cons a t => simp
    simp only [hif, if_true]
    constructor
    · intro hEq
      exfalso
      have hdata : sd = sd.drop pd.length := by
        have := congrArg String.data hEq
        simpa using this
      have hlength := congrArg List.length hdata
      rw [List.length_drop] at hlength
      omega
    · intro hcontra
      cases hcontra

/-- Filling with an always-true callback emits every prepared child. -/
theorem fillLoopTrue (l : List (String × Stat)) : fillLoop (fun _ _ => true) l = l := by
  induction l with
  | nil => rfl
  | cons x rest ih =>
    obtain ⟨n, s⟩ := x
    simp [fillLoop, ih]

/-- Everything the fill loop emits comes from the prepared children. -/
theorem fillLoopSubset (fill : String → Stat → Bool) (l : List (String × Stat)) :
    ∀ x ∈ fillLoop fill l, x ∈ l := by
  induction l with
  | nil =>
    intro x hx
    cases hx
  | cons y rest ih =>
    obtain ⟨n, s⟩ := y
    intro x hx
    by_cases hf : fill n s
    · rw [fillLoop, if_pos hf] at hx
      rcases List.mem_cons.mp hx with h | h
      · exact List.mem_cons.mpr (Or.inl h)
      · exact List.mem_cons.mpr (Or.inr (ih x h))
    · rw [fillLoop, if_neg hf] at hx
      rcases List.mem_cons.mp hx with h | h
      · exact List.mem_cons.mpr (Or.inl h)
      · cases h

/-- C8: for a handle whose obstack holds a repository but no ref, Readdir
enumerates GetRefs and, besides dot and dotdot, yields exactly the refs
whose full name starts with refs/heads/, each with the prefix stripped
and slashes encoded as spaces (shown for a fill that never reports a full
buffer); and under any fill whatsoever, every emitted name besides dot
and dotdot arises from a refs/heads/ ref this way - tags and other refs
never appear. -/
theorem readdirHeadsOnly (fs : HubfsCfg) (st : FsState) (now : Nat) (path : String)
    (fh : Nat) (obs : Obstack) (repo : Repository) (refs : List Ref)
    (hobs : lookupMap st.openmap fh = some obs)
    (href : obs.ref = none) (hrepo : obs.repository = some repo)
    (hrefs : repo.getRefs = Except.ok refs) :
    (Readdir fs st now (fun _ _ => true) path fh =
      (0, (".", readdirStat obs now) :: ("..", readdirStat obs now) ::
        refs.filterMap fun elm =>
          if hasPfx elm.name "refs/heads/" then
            some (replaceAllC (trimPfx elm.name "refs/heads/") '/' ' ', readdirStat obs now)
          else none)) ∧
    (∀ fill nm s, (nm, s) ∈ (Readdir fs st now fill path fh).2 →
      nm = "." ∨ nm = ".." ∨
        ∃ elm ∈ refs, hasPfx elm.name "refs/heads/" = true ∧
          nm = replaceAllC (trimPfx elm.name "refs/heads/") '/' ' ') := by
  have hne : ("refs/heads/" : String) ≠ "" := by decide
  have hchild : readdirChildren fs obs path now =
      refs.filterMap fun elm =>
        if elm.name = trimPfx elm.name "refs/heads/" then none
        else some (replaceAllC (trimPfx elm.name "refs/heads/") '/' ' ', readdirStat obs now) := by
    simp only [readdirChildren, href, hrepo, hrefs]
  have hfneq : (fun elm : Ref =>
      if elm.name = trimPfx elm.name "refs/heads/" then none
      else some (replaceAllC (trimPfx elm.name "refs/heads/") '/' ' ', readdirStat obs now)) =
    fun elm : Ref =>
      if hasPfx elm.name "refs/heads/" then
        some (replaceAllC (trimPfx elm.name "refs/heads/") '/' ' ', readdirStat obs now)
      else none := by
    funext elm
    by_cases hpx : hasPfx elm.name "refs/heads/"
    · have hneq : ¬ elm.name = trimPfx elm.name "refs/heads/" := by
        intro hEq
        have := (trimPfxSelf elm.name "refs/heads/" hne).mp hEq
        rw [hpx] at this
        cases this
      rw [if_neg hneq, if_pos hpx]
    · have hEq : elm.name = trimPfx elm.name "refs/heads/" :=
        (trimPfxSelf elm.name "refs/heads/" hne).mpr (by simpa using hpx)
      rw [if_pos hEq, if_neg hpx]
  constructor
  · simp only [Readdir, hobs, hchild, hfneq, fillLoopTrue]
  · intro fill nm s hmem
    simp only [Readdir, hobs] at hmem
    rcases List.mem_cons.mp hmem with hdot | hmem2
    · left
      exact congrArg Prod.fst hdot
    rcases List.mem_cons.mp hmem2 with hdot2 | hmem3
    · right; left
      exact congrArg Prod.fst hdot2
    right; right
    have hin := fillLoopSubset fill _ _ hmem3
    rw [hchild] at hin
    rcases List.mem_filterMap.mp hin with ⟨elm, helm, hval⟩
    by_cases hEq : elm.name = trimPfx elm.name "refs/heads/"
    · rw [if_pos hEq] at hval
      cases hval
    · rw [if_neg hEq] at hval
      have hpx : hasPfx elm.name "refs/heads/" = true := by
        cases hx : hasPfx elm.name "refs/heads/" with
        | true => rfl
        | false => exact absurd ((trimPfxSelf elm.name "refs/heads/" hne).mpr hx) hEq
      refine ⟨elm, helm, hpx, ?_⟩
      have := congrArg (fun o => (Option.map Prod.fst o).getD "") hval
      simpa using this.symm

/-- C8 witness: listing repoMain yields main and feature x (the tag v1.0
is hidden), each a refs/heads/ name with the prefix stripped and slashes
turned into spaces. -/
theorem readdirHeadsOnlyW :
    repoMain.getRefs = Except.ok [refMain, { name := "refs/tags/v1.0", treeTime := 7 },
      { name := "refs/heads/feature/x", treeTime := 7 }] ∧
    Readdir cfgNone stRepo 3 (fun _ _ => true) "/alice/Project" 0 =
      (0, (".", readdirStat obsRepo 3) :: ("..", readdirStat obsRepo 3) ::
        [refMain, { name := "refs/tags/v1.0", treeTime := 7 },
          { name := "refs/heads/feature/x", treeTime := 7 }].filterMap fun elm =>
            if hasPfx elm.name "refs/heads/" then
              some (replaceAllC (trimPfx elm.name "refs/heads/") '/' ' ', readdirStat obsRepo 3)
            else none) :=
  ⟨rfl, (readdirHeadsOnly cfgNone stRepo 3 "/alice/Project" 0 obsRepo repoMain
    [refMain, { name := "refs/tags/v1.0", treeTime := 7 },
      { name := "refs/heads/feature/x", treeTime := 7 }] rfl rfl rfl rfl).1⟩

/-- C10: for a known handle, Readdir returns errc 0 even when the
enumeration call of its branch (GetTree, GetRefs, GetRepositories or
GetOwners) fails: the error is discarded and only the dot and dotdot
entries are emitted. -/
theorem readdirSwallowsEnumErrors (fs : HubfsCfg) (st : FsState) (now : Nat)
    (fill : String → Stat → Bool) (path : String) (fh : Nat) (obs : Obstack)
    (hobs : lookupMap st.openmap fh = some obs) :
    (∀ ref repo e, obs.ref = some ref → obs.repository = some repo →
      repo.getTree (some ref) obs.entry = Except.error e →
      Readdir fs st now fill path fh =
        (0, [(".", readdirStat obs now), ("..", readdirStat obs now)])) ∧
    (∀ repo e, obs.ref = none → obs.repository = some repo →
      repo.getRefs = Except.error e →
      Readdir fs st now fill path fh =
        (0, [(".", readdirStat obs now), ("..", readdirStat obs now)])) ∧
    (∀ o e, obs.ref = none → obs.repository = none → obs.owner = some o →
      fs.client.getRepositories o = Except.error e →
      Readdir fs st now fill path fh =
        (0, [(".", readdirStat obs now), ("..", readdirStat obs now)])) ∧
    (∀ e, obs.ref = none → obs.repository = none → obs.owner = none →
      fs.client.getOwners = Except.error e →
      Readdir fs st now fill path fh =
        (0, [(".", readdirStat obs now), ("..", readdirStat obs now)])) := by
  refine ⟨?_, ?_, ?_, ?_⟩
  · intro ref repo e h1 h2 h3
    simp [Readdir, hobs, readdirChildren, h1, h2, h3, fillLoop]
  · intro repo e h1 h2 h3
    simp [Readdir, hobs, readdirChildren, h1, h2, h3, fillLoop]
  · intro o e h1 h2 h3 h4
    simp [Readdir, hobs, readdirChildren, h1, h2, h3, h4, fillLoop]
  · intro e h1 h2 h3 h4
    simp [Readdir, hobs, readdirChildren, h1, h2, h3, h4, fillLoop]

/-- C10 witness: a repository-level handle whose GetRefs fails with an
I/O error still gets errc 0 and exactly the dot entries. -/
theorem readdirSwallowsEnumErrorsW :
    repoFailRefs.getRefs = Except.error (Err.other "io failure") ∧
      Readdir cfgNone stFail 5 (fun _ _ => false) "/alice/Project" 0 =
        (0, [(".", readdirStat obsFail 5), ("..", readdirStat obsFail 5)]) :=
  ⟨rfl, (readdirSwallowsEnumErrors cfgNone stFail 5 (fun _ _ => false) "/alice/Project" 0
    obsFail rfl).2.1 repoFailRefs (Err.other "io failure") rfl rfl rfl⟩
